import Mathlib

/-!
Verification development for `django_positions_2/fields.py` (`PositionField`).

The store is modelled as a list of rows.  Each row carries its primary key,
its collection key (the tuple of collection field values, collapsed to one
natural number), its position (a Python `int`, hence `Int`), and the value of
its auto-now timestamp fields (collapsed to one natural number `stamp`; a bulk
update that stamps the auto-now fields sets `stamp` to the current time).

The lifecycle of a save is the one wired up in `contribute_to_class`:
`pre_save` resolves the position (fetching the previous record, performing the
collection-exit shift for a cross-collection move, counting the target
collection and resolving the requested value), the host then writes the row
itself, and the `post_save` signal handler `update_on_save` performs the
neighbour reconciliation.  A delete runs `prepare_delete` (capturing the next
sibling's pk), the host removes the row, and `update_on_delete` closes the gap.
-/

namespace DjangoPositions

structure Item where
  pk : Nat
  coll : Nat
  pos : Int
  stamp : Nat
deriving Repr, DecidableEq

abbrev State := List Item

/-- `get_collection` (fields.py:143-157): the rows whose collection fields
equal the given collection key. -/
def get_collection (s : State) (c : Nat) : State :=
  s.filter (fun it => it.coll == c)

/-- `self.get_collection(model_instance).count()` (fields.py:88). -/
def collCount (s : State) (c : Nat) : Nat :=
  (get_collection s c).length

/-- `type(model_instance)._default_manager.get(pk=...)` (fields.py:51, 194). -/
def findItem (s : State) (pk : Nat) : Option Item :=
  s.find? (fun it => it.pk == pk)

/-- The primary keys present in the store. -/
def pks (s : State) : List Nat :=
  s.map (fun it => it.pk)

/-- The host's row insert performed by `save()` on a new record; the row is
written with the position returned by `pre_save`, and Django itself stamps the
`auto_now` fields of the saved row. -/
def insertRow (s : State) (pk c : Nat) (p : Int) (t : Nat) : State :=
  s ++ [⟨pk, c, p, t⟩]

/-- The host's row update performed by `save()` on an existing record: all
fields of the row are rewritten (collection key, the position returned by
`pre_save`, and the `auto_now` stamps). -/
def writeRow (s : State) (pk c : Nat) (p : Int) (t : Nat) : State :=
  s.map (fun it => if it.pk = pk then ⟨it.pk, c, p, t⟩ else it)

/-- The host's row removal performed by `delete()`. -/
def removeRow (s : State) (pk : Nat) : State :=
  s.filter (fun it => it.pk != pk)

/-- The position-resolution branches of `pre_save` (fields.py:100-115),
with `min_position = 0` (fields.py:93). -/
def resolvePos (updated maxPos : Int) : Int :=
  let min_position : Int := 0
  if maxPos ≥ updated ∧ updated ≥ min_position then
    -- positive position; valid index
    updated
  else if updated > maxPos then
    -- positive position; invalid index
    maxPos
  else if |updated| ≤ maxPos + 1 then
    -- negative position; valid index
    maxPos + 1 + updated
  else
    -- negative position; invalid index
    min_position

/-- `remove_from_collection` (fields.py:169-180): in the given (old)
collection, decrement the position of every row whose position is greater
than `current`, stamping the auto-now fields in the same bulk update.  The
queryset is not filtered by pk: the moving row itself is unaffected only
because its stored position equals `current`. -/
def remove_from_collection (s : State) (c : Nat) (current : Int) (t : Nat) : State :=
  s.map (fun it =>
    if it.coll = c ∧ current < it.pos then ⟨it.pk, it.coll, it.pos - 1, t⟩ else it)

/-- `get_next_sibling` (fields.py:159-167): some row of the instance's
collection whose position is greater than the instance's cached current
position, `None` if there is none. -/
def get_next_sibling (s : State) (c : Nat) (current : Int) : Option Item :=
  (get_collection s c).find? (fun it => decide (current < it.pos))

/-- The three mutually exclusive bulk updates of `update_on_save`
(fields.py:228-241), applied over the target collection excluding the saved
row itself, with the auto-now stamps written in the same update.  `current`
is the first cache component; it is `none` exactly when the record was
created or moved in from another collection, in which case the first branch
is taken and `current` is never read (fields.py:225-231). -/
def update_on_save (s : State) (pk c : Nat) (collectionChanged created : Bool)
    (current : Option Int) (updated : Int) (t : Nat) : State :=
  if created || collectionChanged then
    -- increment positions gte updated or node moved from another collection
    s.map (fun it =>
      if it.pk ≠ pk ∧ it.coll = c ∧ updated ≤ it.pos then
        ⟨it.pk, it.coll, it.pos + 1, t⟩ else it)
  else
    match current with
    | none => s
    | some cur =>
      if cur < updated then
        -- decrement positions gt current and lte updated
        s.map (fun it =>
          if it.pk ≠ pk ∧ it.coll = c ∧ cur < it.pos ∧ it.pos ≤ updated then
            ⟨it.pk, it.coll, it.pos - 1, t⟩ else it)
      else
        -- increment positions lt current and gte updated
        s.map (fun it =>
          if it.pk ≠ pk ∧ it.coll = c ∧ it.pos < cur ∧ updated ≤ it.pos then
            ⟨it.pk, it.coll, it.pos + 1, t⟩ else it)

/-- `update_on_delete` (fields.py:190-206): if a sibling pk was remembered
(`if next_sibling_pk:` is Python truthiness, so a remembered pk of `0` is
treated like `None`), re-fetch it (a failed fetch is swallowed and skipped);
if found, decrement the position of every row of the *sibling's* current
collection whose position is greater than the deleted row's former position,
stamping auto-now fields in the same update. -/
def update_on_delete (s : State) (nextSiblingPk : Option Nat) (formerPos : Int)
    (t : Nat) : State :=
  match nextSiblingPk with
  | none => s
  | some spk =>
    if spk ≠ 0 then
      match findItem s spk with
      | none => s
      | some sib =>
        s.map (fun it =>
          if it.coll = sib.coll ∧ formerPos < it.pos then
            ⟨it.pk, it.coll, it.pos - 1, t⟩ else it)
    else s

/-- A completed create: `pre_save` with `add` true (the new instance's cache
is `(-1, requested-or-none)` from the field default, so after
`if updated is None: updated = current` the requested value is `-1` when the
caller never set the field), the host's insert, and `update_on_save` with
`created` true.  The fast path (fields.py:95-98) marks no reconciliation
needed, so `update_on_save` returns at fields.py:214-215. -/
def createOp (s : State) (pk c : Nat) (req : Int) (t : Nat) : State :=
  let cnt : Int := collCount s c
  -- current is None, so max_position = collection_count (fields.py:89-90)
  if req = -1 ∨ cnt ≤ req then
    -- new instance; appended; no cleanup required on post_save
    insertRow s pk c cnt t
  else
    let position := resolvePos req cnt
    update_on_save (insertRow s pk c position t) pk c false true none position t

/-- A completed update of the fetched row `pk` (its cache is
`(stored position, requested-or-none)`), possibly changing its collection key
to `newColl`: `pre_save` with `add` false (fields.py:45-119), the host's row
write, and `update_on_save` with `created` false.  When the request is absent
and the collection is unchanged `pre_save` returns the current position
without marking reconciliation (fields.py:80-81) and `update_on_save` returns
at fields.py:214-215.  An update command in this model operates on a row
fetched from the store, so the `ObjectDoesNotExist` fallback of
fields.py:59-60 is not reachable here; see `updateOpE` for the instrumented
pipeline. -/
def updateOp (s : State) (pk newColl : Nat) (req : Option Int) (t : Nat) : State :=
  match findItem s pk with
  | none => s
  | some prev =>
    let s₁ := if prev.coll ≠ newColl then
        remove_from_collection s prev.coll prev.pos t
      else s
    let current : Option Int := if prev.coll ≠ newColl then none else some prev.pos
    match current, req with
    | some c, none => writeRow s₁ pk newColl c t
    | _, _ =>
      -- if updated is still unknown set the object to the last position
      let updated := req.getD (-1)
      let cnt : Int := collCount s₁ newColl
      let maxPos : Int := if current = none then cnt else cnt - 1
      let position := resolvePos updated maxPos
      let s₂ := writeRow s₁ pk newColl position t
      update_on_save s₂ pk newColl (decide (prev.coll ≠ newColl)) false current position t

/-- A completed delete of row `pk`: `prepare_delete` captures the next
sibling's pk (fields.py:182-188), the host removes the row, and
`update_on_delete` closes the gap. -/
def deleteOp (s : State) (pk : Nat) (t : Nat) : State :=
  match findItem s pk with
  | none => s
  | some inst =>
    let nspk := (get_next_sibling s inst.coll inst.pos).map (fun it => it.pk)
    update_on_delete (removeRow s pk) nspk inst.pos t

/-- The net per-row effect of a completed within-collection reposition of row
`pk₀` from position `c₀` to resolved position `u`: the row itself is rewritten
at `u`, and `update_on_save` shifts exactly one of the two tight intervals
(at most one of the two shift branches can match any row, by the sign of
`u - c₀`). -/
def reconcileMove (pk₀ col : Nat) (c₀ u : Int) (t : Nat) (it : Item) : Item :=
  if it.pk = pk₀ then ⟨it.pk, col, u, t⟩
  else if it.coll = col ∧ c₀ < it.pos ∧ it.pos ≤ u then ⟨it.pk, it.coll, it.pos - 1, t⟩
  else if it.coll = col ∧ it.pos < c₀ ∧ u ≤ it.pos then ⟨it.pk, it.coll, it.pos + 1, t⟩
  else it

/-- The net per-row effect of a completed cross-collection move of row `pk₀`
from collection `A` (old position `c₀`) to collection `B` (resolved position
`u`): the collection-exit shift closes the gap in `A` and the `created or
collection_changed` branch of `update_on_save` opens a slot at `u` in `B`. -/
def moveOut (pk₀ A B : Nat) (c₀ u : Int) (t : Nat) (it : Item) : Item :=
  if it.pk = pk₀ then ⟨it.pk, B, u, t⟩
  else if it.coll = A ∧ c₀ < it.pos then ⟨it.pk, it.coll, it.pos - 1, t⟩
  else if it.coll = B ∧ u ≤ it.pos then ⟨it.pk, it.coll, it.pos + 1, t⟩
  else it

/-- The delete pipeline with store-failure injection points, mirroring the
`try`/`except` structure of the source.  `sibErr` makes the sibling read in
`get_next_sibling` fail: the bare `except Exception: return None`
(fields.py:166-167) swallows it.  `refetchErr` makes the sibling re-fetch in
`update_on_delete` fail: `except Exception: next_sibling = None`
(fields.py:195-196) swallows it.  `gapErr` makes the unguarded gap-closure
bulk update (fields.py:205) fail: it surfaces unchanged. -/
def deleteOpE (s : State) (pk : Nat) (t : Nat)
    (sibErr refetchErr gapErr : Option Nat) : Except Nat State :=
  match findItem s pk with
  | none => .ok s
  | some inst =>
    let nspk : Option Nat :=
      match sibErr with
      | some _ => none
      | none => (get_next_sibling s inst.coll inst.pos).map (fun it => it.pk)
    let s₁ := removeRow s pk
    match nspk with
    | none => .ok s₁
    | some spk =>
      if spk ≠ 0 then
        match refetchErr with
        | some _ => .ok s₁
        | none =>
          match findItem s₁ spk with
          | none => .ok s₁
          | some sib =>
            match gapErr with
            | some e => .error e
            | none => .ok (s₁.map (fun it =>
                if it.coll = sib.coll ∧ inst.pos < it.pos then
                  ⟨it.pk, it.coll, it.pos - 1, t⟩ else it))
      else .ok s₁

/-- The save-an-existing-row pipeline with store-failure injection points.
`prevErr` is a failure of the previous-record fetch other than
`ObjectDoesNotExist`: only the latter is caught (fields.py:59), so it
surfaces unchanged, while a plain not-found degrades to the insert path with
the detached instance's cached position `staleCur` as the pending request.
`removeErr` fails the unguarded collection-exit bulk update (fields.py:180),
`countErr` the unguarded collection count (fields.py:88), and `reconErr` the
unguarded reconciliation bulk update (fields.py:241); all three surface
unchanged.  The untouched no-op path (fields.py:80-81) and the append fast
path (fields.py:95-98) return before reaching the guarded sites that follow
them. -/
def updateOpE (s : State) (pk newColl : Nat) (req : Option Int) (t : Nat)
    (staleCur : Int) (prevErr removeErr countErr reconErr : Option Nat) :
    Except Nat State :=
  match prevErr with
  | some e => .error e
  | none =>
    match findItem s pk with
    | none =>
      -- except models.ObjectDoesNotExist: add = True; collection_changed
      -- stays False (the exception is raised before the comparison loop)
      let updated := req.getD staleCur
      match countErr with
      | some e => .error e
      | none =>
        let cnt : Int := collCount s newColl
        if updated = -1 ∨ cnt ≤ updated then .ok (insertRow s pk newColl cnt t)
        else
          let position := resolvePos updated cnt
          match reconErr with
          | some e => .error e
          | none => .ok (update_on_save (insertRow s pk newColl position t)
              pk newColl false true none position t)
    | some prev =>
      match (if prev.coll ≠ newColl then removeErr else none) with
      | some e => .error e
      | none =>
        let s₁ := if prev.coll ≠ newColl then
            remove_from_collection s prev.coll prev.pos t
          else s
        let current : Option Int := if prev.coll ≠ newColl then none else some prev.pos
        match current, req with
        | some c, none => .ok (writeRow s₁ pk newColl c t)
        | _, _ =>
          match countErr with
          | some e => .error e
          | none =>
            let updated := req.getD (-1)
            let cnt : Int := collCount s₁ newColl
            let maxPos : Int := if current = none then cnt else cnt - 1
            let position := resolvePos updated maxPos
            match reconErr with
            | some e => .error e
            | none => .ok (update_on_save (writeRow s₁ pk newColl position t)
                pk newColl (decide (prev.coll ≠ newColl)) false current position t)

/-- The multiset of positions of a collection's members. -/
def posMS (s : State) (c : Nat) : Multiset Int :=
  ((get_collection s c).map (fun it => it.pos) : List Int)

/-- The multiset `{0, 1, …, n-1}` of expected positions. -/
def rangeMS (n : Nat) : Multiset Int :=
  Multiset.map (fun k : Nat => (k : Int)) (Multiset.range n)

/-- The spec's invariant for one collection: the multiset of its members'
positions is exactly `{0, …, N-1}` — no duplicates, no gaps. -/
def denseAt (s : State) (c : Nat) : Prop :=
  posMS s c = rangeMS (collCount s c)

/-- Host-guaranteed well-formedness plus the spec invariant: primary keys are
unique (database primary key) and nonzero (Django autofields start at 1), and
every collection is dense. -/
def WF (s : State) : Prop :=
  (pks s).Nodup ∧ (∀ p ∈ pks s, p ≠ 0) ∧ ∀ c, denseAt s c

/-- The operations a host can complete against the store. -/
inductive Op where
  | create (pk c : Nat) (req : Int)
  | update (pk newColl : Nat) (req : Option Int)
  | delete (pk : Nat)
deriving Repr, DecidableEq

def applyOp (s : State) (t : Nat) : Op → State
  | .create pk c req => createOp s pk c req t
  | .update pk newColl req => updateOp s pk newColl req t
  | .delete pk => deleteOp s pk t

/-- Host-side validity of a command: creates insert a fresh, nonzero primary
key (database uniqueness; autofield), updates and deletes act on a fetched
row. -/
def validOp (s : State) : Op → Bool
  | .create pk _ _ => decide (pk ∉ pks s) && (pk != 0)
  | .update pk _ _ => decide (pk ∈ pks s)
  | .delete pk => decide (pk ∈ pks s)

def validSeq : State → Nat → List Op → Bool
  | _, _, [] => true
  | s, t, op :: rest => validOp s op && validSeq (applyOp s t op) (t + 1) rest

def runOps : State → Nat → List Op → State
  | s, _, [] => s
  | s, t, op :: rest => runOps (applyOp s t op) (t + 1) rest

/-! ## Basic facts about position resolution -/

theorem resolvePos_bounds (r m : Int) (hm : 0 ≤ m) :
    0 ≤ resolvePos r m ∧ resolvePos r m ≤ m := by
  have habs : |r| = (r.natAbs : Int) := Int.abs_eq_natAbs r
  simp only [resolvePos]
  split_ifs <;> omega

theorem resolvePos_append (r m : Int) (hm : 0 ≤ m) (h : r = -1 ∨ m ≤ r) :
    resolvePos r m = m := by
  have habs : |r| = (r.natAbs : Int) := Int.abs_eq_natAbs r
  simp only [resolvePos]
  split_ifs <;> omega

theorem resolvePos_exact (r m : Int) (h0 : 0 ≤ r) (hm : r ≤ m) :
    resolvePos r m = r := by
  simp only [resolvePos]
  split_ifs <;> omega

/-- C2: position resolution returns the requested value when it is a valid
index, clamps an overlarge request to `maxPosition`, interprets a negative
request of magnitude at most `maxPosition + 1` as a from-the-end index with
`-1` the last position, and clamps any more negative request to `0`. -/
theorem claim_C2_resolution (r m : Int) (hm : 0 ≤ m) :
    (0 ≤ r → r ≤ m → resolvePos r m = r) ∧
    (m < r → resolvePos r m = m) ∧
    (r < 0 → |r| ≤ m + 1 → resolvePos r m = m + 1 + r) ∧
    (r < 0 → m + 1 < |r| → resolvePos r m = 0) := by
  have habs : |r| = (r.natAbs : Int) := Int.abs_eq_natAbs r
  refine ⟨fun h1 h2 => ?_, fun h1 => ?_, fun h1 h2 => ?_, fun h1 h2 => ?_⟩ <;>
    · simp only [resolvePos]
      split_ifs <;> omega

theorem claim_C2_witness :
    0 ≤ (4 : Int) ∧
      ((0 ≤ (-1 : Int) → (-1 : Int) ≤ 4 → resolvePos (-1) 4 = -1) ∧
       ((4 : Int) < -1 → resolvePos (-1) 4 = 4) ∧
       ((-1 : Int) < 0 → |(-1 : Int)| ≤ 4 + 1 → resolvePos (-1) 4 = 4 + 1 + -1) ∧
       ((-1 : Int) < 0 → (4 : Int) + 1 < |(-1 : Int)| → resolvePos (-1) 4 = 0)) :=
  ⟨by decide, claim_C2_resolution (-1) 4 (by decide)⟩

/-! ## Bookkeeping lemmas about primary keys and lookups -/

theorem mem_pks {s : State} {p : Nat} : p ∈ pks s ↔ ∃ it ∈ s, it.pk = p := by
  simp [pks]

theorem pk_ne_of_not_mem {s : State} {pk : Nat} (h : pk ∉ pks s) {it : Item}
    (hit : it ∈ s) : it.pk ≠ pk :=
  fun he => h (mem_pks.mpr ⟨it, hit, he⟩)

theorem findItem_eq_some {s : State} {pk : Nat} {it : Item}
    (h : findItem s pk = some it) : it ∈ s ∧ it.pk = pk := by
  refine ⟨List.mem_of_find?_eq_some h, ?_⟩
  simpa using List.find?_some h

theorem findItem_of_mem {s : State} (h : (pks s).Nodup) {y : Item} (hy : y ∈ s) :
    findItem s y.pk = some y := by
  induction s with
  | nil => cases hy
  | cons a l ih =>
    simp only [pks, List.map_cons, List.nodup_cons] at h
    rcases List.mem_cons.mp hy with rfl | hyl
    · simp [findItem]
    · have hne : (a.pk == y.pk) = false := by
        rw [beq_eq_false_iff_ne]
        intro he
        exact h.1 (he ▸ List.mem_map_of_mem _ hyl)
      simpa [findItem, hne] using ih h.2 hyl

theorem eq_of_pk_eq {s : State} (h : (pks s).Nodup) {x y : Item} (hx : x ∈ s)
    (hy : y ∈ s) (he : x.pk = y.pk) : x = y := by
  have h' : (s.map (fun it => it.pk)).Nodup := h
  exact List.inj_on_of_nodup_map h' hx hy he

theorem erase_pk_ne {s : State} (hnod : (pks s).Nodup) {x : Item} (hx : x ∈ s)
    {y : Item} (hy : y ∈ s.erase x) : y.pk ≠ x.pk := by
  have hs : s.Nodup := List.Nodup.of_map _ hnod
  have hyy := (List.Nodup.mem_erase_iff hs).mp hy
  intro he
  exact hyy.1 (eq_of_pk_eq hnod hyy.2 hx he)

theorem exists_findItem {s : State} {pk : Nat} (h : pk ∈ pks s) :
    ∃ x, findItem s pk = some x := by
  rcases mem_pks.mp h with ⟨it, hit, hpk⟩
  have hs : (s.find? (fun it => it.pk == pk)).isSome :=
    List.find?_isSome.mpr ⟨it, hit, by simp [hpk]⟩
  exact Option.isSome_iff_exists.mp hs

/-! ## Characterization helpers shared by several claims -/

theorem resolvePos_getD_none (m : Int) :
    resolvePos ((none : Option Int).getD (-1)) m = resolvePos (-1) m := rfl

/-! ## Characterization of a completed create -/

theorem createOp_fast (s : State) (pk c : Nat) (req : Int) (t : Nat)
    (h : req = -1 ∨ (collCount s c : Int) ≤ req) :
    createOp s pk c req t = s ++ [⟨pk, c, (collCount s c : Int), t⟩] := by
  simp only [createOp, insertRow]
  rw [if_pos h]

theorem createOp_insert (s : State) (pk c : Nat) (req : Int) (t : Nat)
    (h : ¬(req = -1 ∨ (collCount s c : Int) ≤ req)) (hpk : pk ∉ pks s) :
    createOp s pk c req t =
      s.map (fun it => if it.coll = c ∧ resolvePos req (collCount s c) ≤ it.pos
        then ⟨it.pk, it.coll, it.pos + 1, t⟩ else it)
      ++ [⟨pk, c, resolvePos req (collCount s c), t⟩] := by
  simp only [createOp, insertRow, update_on_save]
  rw [if_neg h]
  simp only [Bool.or_false, if_pos]
  rw [List.map_append]
  congr 1
  · refine List.map_congr_left fun it hit => ?_
    have hne : it.pk ≠ pk := pk_ne_of_not_mem hpk hit
    simp [hne]
  · simp

/-- C3: creating an item whose requested position is absent (the default
`-1`) or at least the collection's count resolves its position to exactly
the previous count, and the rest of the store — every other item in every
collection — is untouched by the save and its reconciliation phase. -/
theorem claim_C3_append (s : State) (pk c : Nat) (req : Int) (t : Nat)
    (h : req = -1 ∨ (collCount s c : Int) ≤ req) :
    createOp s pk c req t = s ++ [⟨pk, c, (collCount s c : Int), t⟩] :=
  createOp_fast s pk c req t h

theorem claim_C3_witness :
    ((-1 : Int) = -1 ∨ (collCount [⟨1, 0, 0, 0⟩, ⟨2, 0, 1, 0⟩] 0 : Int) ≤ -1) ∧
      createOp [⟨1, 0, 0, 0⟩, ⟨2, 0, 1, 0⟩] 3 0 (-1) 7 =
        [⟨1, 0, 0, 0⟩, ⟨2, 0, 1, 0⟩] ++
          [⟨3, 0, (collCount [⟨1, 0, 0, 0⟩, ⟨2, 0, 1, 0⟩] 0 : Int), 7⟩] :=
  ⟨Or.inl rfl, claim_C3_append [⟨1, 0, 0, 0⟩, ⟨2, 0, 1, 0⟩] 3 0 (-1) 7 (Or.inl rfl)⟩

/-- C4: creating an item at a requested position `0 ≤ p ≤ N` in a dense
collection of `N` members places the new item exactly at `p`, increments by
one (and stamps) every pre-existing item of that collection with position
`≥ p`, and leaves every other pre-existing item — below `p` or in another
collection — unchanged. -/
theorem claim_C4_insert (s : State) (pk c : Nat) (p : Int) (t : Nat)
    (hpk : pk ∉ pks s) (h0 : 0 ≤ p) (hN : p ≤ (collCount s c : Int))
    (hb : ∀ it ∈ s, it.coll = c → it.pos < (collCount s c : Int)) :
    createOp s pk c p t =
      s.map (fun it => if it.coll = c ∧ p ≤ it.pos
        then ⟨it.pk, it.coll, it.pos + 1, t⟩ else it)
      ++ [⟨pk, c, p, t⟩] := by
  by_cases hfast : p = -1 ∨ (collCount s c : Int) ≤ p
  · have hpN : p = (collCount s c : Int) := by rcases hfast with h | h <;> omega
    rw [createOp_fast s pk c p t hfast, ← hpN]
    congr 1
    have : ∀ it ∈ s, (if it.coll = c ∧ p ≤ it.pos
        then (⟨it.pk, it.coll, it.pos + 1, t⟩ : Item) else it) = it := by
      intro it hit
      rw [if_neg]
      rintro ⟨hcoll, hpos⟩
      exact absurd (hb it hit hcoll) (by omega)
    rw [List.map_congr_left this, List.map_id']
  · have hp : resolvePos p (collCount s c) = p := resolvePos_exact p _ h0 hN
    rw [createOp_insert s pk c p t hfast hpk, hp]

theorem claim_C4_witness :
    (3 ∉ pks [⟨1, 0, 0, 0⟩, ⟨2, 0, 1, 0⟩]) ∧ (0 ≤ (1 : Int)) ∧
      ((1 : Int) ≤ (collCount [⟨1, 0, 0, 0⟩, ⟨2, 0, 1, 0⟩] 0 : Int)) ∧
      (∀ it ∈ [(⟨1, 0, 0, 0⟩ : Item), ⟨2, 0, 1, 0⟩], it.coll = 0 →
        it.pos < (collCount [⟨1, 0, 0, 0⟩, ⟨2, 0, 1, 0⟩] 0 : Int)) ∧
      createOp [⟨1, 0, 0, 0⟩, ⟨2, 0, 1, 0⟩] 3 0 1 7 =
        ([⟨1, 0, 0, 0⟩, ⟨2, 0, 1, 0⟩] : State).map (fun it =>
          if it.coll = 0 ∧ (1 : Int) ≤ it.pos
          then ⟨it.pk, it.coll, it.pos + 1, 7⟩ else it) ++ [⟨3, 0, 1, 7⟩] :=
  ⟨by decide, by decide, by decide, by decide,
    claim_C4_insert [⟨1, 0, 0, 0⟩, ⟨2, 0, 1, 0⟩] 3 0 1 7 (by decide) (by decide)
      (by decide) (by decide)⟩

/-! ## Characterization of a completed update -/

theorem collCount_map_congr (s : State) (f : Item → Item) (c : Nat)
    (h : ∀ it ∈ s, (f it).coll = it.coll) :
    collCount (s.map f) c = collCount s c := by
  simp only [collCount, get_collection, List.filter_map]
  rw [List.length_map]
  exact congrArg List.length (List.filter_congr fun it hit => by
    simp [Function.comp, h it hit])

theorem collCount_remove (s : State) (A : Nat) (cur : Int) (t : Nat) (c : Nat) :
    collCount (remove_from_collection s A cur t) c = collCount s c := by
  refine collCount_map_congr s _ c fun it _ => ?_
  by_cases hc : it.coll = A ∧ cur < it.pos <;> simp [hc]

/-- An untouched save of an existing row: `pre_save` takes the early-return
path (fields.py:80-81) and `update_on_save` does not shift anything; the
host still rewrites the row itself (same collection, same position). -/
theorem updateOp_noreq (s : State) (pk : Nat) (x : Item) (t : Nat)
    (hf : findItem s pk = some x) :
    updateOp s pk x.coll none t = writeRow s pk x.coll x.pos t := by
  simp [updateOp, hf]

/-- A completed within-collection reposition: the row is rewritten at the
resolved position (with `max_position = count - 1` for an existing member)
and `update_on_save` shifts exactly the tight interval between the old and
new positions, excluding the row itself. -/
theorem updateOp_sameColl (s : State) (pk : Nat) (x : Item) (r : Int) (t : Nat)
    (hf : findItem s pk = some x) :
    updateOp s pk x.coll (some r) t =
      s.map (reconcileMove pk x.coll x.pos
        (resolvePos r ((collCount s x.coll : Int) - 1)) t) := by
  simp only [updateOp, hf]
  simp only [ne_eq, not_true_eq_false, if_false, ite_false, ite_true, eq_self_iff_true,
    Option.getD_some, decide_False, reduceCtorEq, update_on_save, Bool.or_self,
    Bool.false_eq_true, writeRow]
  set u := resolvePos r ((collCount s x.coll : Int) - 1) with hu
  by_cases hlt : x.pos < u
  · rw [if_pos hlt, List.map_map]
    refine List.map_congr_left fun it _ => ?_
    simp only [Function.comp, reconcileMove]
    by_cases hp : it.pk = pk
    · simp [hp]
    · simp only [hp, if_false, ne_eq, not_false_iff, true_and]
      by_cases hb2 : it.coll = x.coll ∧ x.pos < it.pos ∧ it.pos ≤ u
      · rw [if_pos hb2, if_pos hb2]
      · rw [if_neg hb2, if_neg hb2, if_neg]
        rintro ⟨h1, h2, h3⟩
        omega
  · rw [if_neg hlt, List.map_map]
    refine List.map_congr_left fun it _ => ?_
    simp only [Function.comp, reconcileMove]
    by_cases hp : it.pk = pk
    · simp [hp]
    · simp only [hp, if_false, ne_eq, not_false_iff, true_and]
      by_cases hb2 : it.coll = x.coll ∧ x.pos < it.pos ∧ it.pos ≤ u
      · exfalso
        omega
      · rw [if_neg hb2]

/-- A completed cross-collection move: the collection-exit shift closes the
gap behind the row in its old collection, the row is rewritten in the new
collection at the resolved position (with `max_position` the new
collection's count), and `update_on_save` opens a slot there. -/
theorem updateOp_moveColl (s : State) (pk B : Nat) (x : Item) (req : Option Int)
    (t : Nat) (hf : findItem s pk = some x) (hAB : x.coll ≠ B) :
    updateOp s pk B req t =
      s.map (moveOut pk x.coll B x.pos
        (resolvePos (req.getD (-1)) (collCount s B)) t) := by
  simp only [updateOp, hf]
  rw [if_pos hAB, if_pos hAB]
  simp only [collCount_remove]
  simp only [ite_true, eq_self_iff_true]
  simp only [update_on_save]
  have hbc : (false || decide ¬(x.coll = B)) = true := by simp [hAB]
  rw [if_pos hbc]
  simp only [writeRow, remove_from_collection, List.map_map]
  refine List.map_congr_left fun it _ => ?_
  simp only [Function.comp, moveOut]
  split_ifs <;> first | rfl | (exfalso; simp only [reduceIte] at *; omega)

/-! ## Characterization of a completed delete -/

theorem pks_removeRow_nodup {s : State} (h : (pks s).Nodup) (pk : Nat) :
    (pks (removeRow s pk)).Nodup := by
  have hsub : (List.map (fun it => it.pk) (removeRow s pk)).Sublist
      (List.map (fun it => it.pk) s) :=
    (List.filter_sublist s).map _
  exact List.Nodup.sublist hsub h

/-- A completed delete removes the row and decrements every member of its
collection beyond its former position; when no such member exists the
captured sibling is `none` and the gap-closure is skipped, which coincides
with the map below being the identity. -/
theorem deleteOp_char (s : State) (pk : Nat) (x : Item) (t : Nat)
    (hf : findItem s pk = some x) (hnod : (pks s).Nodup)
    (hnz : ∀ p ∈ pks s, p ≠ 0) :
    deleteOp s pk t = (s.filter (fun it => it.pk != pk)).map
      (fun it => if it.coll = x.coll ∧ x.pos < it.pos then
        ⟨it.pk, it.coll, it.pos - 1, t⟩ else it) := by
  have hx := findItem_eq_some hf
  simp only [deleteOp, hf]
  cases hsib : get_next_sibling s x.coll x.pos with
  | none =>
    simp only [Option.map_none', update_on_delete, removeRow]
    have hid : ∀ it ∈ s.filter (fun it => it.pk != pk),
        (if it.coll = x.coll ∧ x.pos < it.pos then
          (⟨it.pk, it.coll, it.pos - 1, t⟩ : Item) else it) = it := by
      intro it hit
      rw [if_neg]
      rintro ⟨h1, h2⟩
      have hmem := (List.mem_filter.mp hit).1
      have hcol : it ∈ get_collection s x.coll :=
        List.mem_filter.mpr ⟨hmem, by simp [h1]⟩
      have hnone := List.find?_eq_none.mp hsib it hcol
      simp at hnone
      omega
    rw [List.map_congr_left hid, List.map_id']
  | some sib =>
    have hsibmem : sib ∈ get_collection s x.coll := List.mem_of_find?_eq_some hsib
    have hsibpos : x.pos < sib.pos := by simpa using List.find?_some hsib
    have hsibcoll : sib.coll = x.coll := by
      have := (List.mem_filter.mp hsibmem).2
      simpa using this
    have hsibs : sib ∈ s := (List.mem_filter.mp hsibmem).1
    have hsibne : sib.pk ≠ pk := by
      intro he
      have heq : sib = x := eq_of_pk_eq hnod hsibs hx.1 (he.trans hx.2.symm)
      rw [heq] at hsibpos
      omega
    have hsibnz : sib.pk ≠ 0 := hnz _ (mem_pks.mpr ⟨sib, hsibs, rfl⟩)
    have href : findItem (removeRow s pk) sib.pk = some sib := by
      have hmem' : sib ∈ removeRow s pk :=
        List.mem_filter.mpr ⟨hsibs, by simp [hsibne]⟩
      exact findItem_of_mem (pks_removeRow_nodup hnod pk) hmem'
    simp only [Option.map_some', update_on_delete, if_pos hsibnz, href, hsibcoll]
    simp only [removeRow]

/-! ## Claims C5, C6, C8, C10 -/

/-- C5: a completed within-collection reposition of an existing row from
current position `x.pos` to the resolved position `u` rewrites the row at
`u` and performs one bulk update that excludes the row itself and touches
exactly the tight interval implied by the direction: for `u > x.pos` it
decrements (and stamps) exactly the rows with position in `(x.pos, u]`, for
`u < x.pos` it increments exactly the rows with position in `[u, x.pos)`,
and nothing else changes (`reconcileMove` has exactly those three cases,
and its two shift branches are mutually exclusive by the sign of
`u - x.pos`). -/
theorem claim_C5_reposition (s : State) (pk : Nat) (x : Item) (r : Int) (t : Nat)
    (hf : findItem s pk = some x) :
    updateOp s pk x.coll (some r) t =
      s.map (reconcileMove pk x.coll x.pos
        (resolvePos r ((collCount s x.coll : Int) - 1)) t) :=
  updateOp_sameColl s pk x r t hf

theorem claim_C5_witness :
    (findItem [⟨1, 0, 0, 0⟩, ⟨2, 0, 1, 0⟩, ⟨3, 0, 2, 0⟩] 1 = some ⟨1, 0, 0, 0⟩) ∧
      updateOp [⟨1, 0, 0, 0⟩, ⟨2, 0, 1, 0⟩, ⟨3, 0, 2, 0⟩] 1 (Item.coll ⟨1, 0, 0, 0⟩)
          (some 2) 9 =
        ([⟨1, 0, 0, 0⟩, ⟨2, 0, 1, 0⟩, ⟨3, 0, 2, 0⟩] : State).map
          (reconcileMove 1 (Item.coll ⟨1, 0, 0, 0⟩) (Item.pos ⟨1, 0, 0, 0⟩)
            (resolvePos 2
              ((collCount [⟨1, 0, 0, 0⟩, ⟨2, 0, 1, 0⟩, ⟨3, 0, 2, 0⟩]
                (Item.coll ⟨1, 0, 0, 0⟩) : Int) - 1)) 9) :=
  ⟨by decide,
    claim_C5_reposition [⟨1, 0, 0, 0⟩, ⟨2, 0, 1, 0⟩, ⟨3, 0, 2, 0⟩] 1 ⟨1, 0, 0, 0⟩ 2 9
      (by decide)⟩

/-- C6: for every completed cross-collection move — any requested position,
not just append — the store is exactly `s.map (moveOut …)`: the row itself is
rewritten into the destination at the resolved position, and (second branch
of `moveOut`) every other row of the old collection with position strictly
greater than the row's old position is decremented by one (and stamped), so
the old collection closes up.  When the move is an append (absent request)
the row additionally lands exactly at the destination's prior count and —
because a dense destination has no position at or beyond its count — none of
the destination's pre-existing rows change. -/
theorem claim_C6_crossMove (s : State) (pk B : Nat) (x : Item) (req : Option Int)
    (t : Nat) (hf : findItem s pk = some x) (hAB : x.coll ≠ B)
    (hb : ∀ it ∈ s, it.coll = B → it.pos < (collCount s B : Int)) :
    (updateOp s pk B req t =
      s.map (moveOut pk x.coll B x.pos
        (resolvePos (req.getD (-1)) (collCount s B)) t)) ∧
    (updateOp s pk B none t =
      s.map (fun it =>
        if it.pk = pk then ⟨it.pk, B, (collCount s B : Int), t⟩
        else if it.coll = x.coll ∧ x.pos < it.pos then
          ⟨it.pk, it.coll, it.pos - 1, t⟩
        else it)) := by
  refine ⟨updateOp_moveColl s pk B x req t hf hAB, ?_⟩
  rw [updateOp_moveColl s pk B x none t hf hAB]
  have hres : resolvePos ((none : Option Int).getD (-1)) (collCount s B) =
      (collCount s B : Int) :=
    resolvePos_append _ _ (Int.natCast_nonneg _) (Or.inl rfl)
  refine List.map_congr_left fun it hit => ?_
  simp only [moveOut, hres]
  by_cases hp : it.pk = pk
  · simp [hp]
  · simp only [hp, if_false]
    by_cases hcA : it.coll = x.coll ∧ x.pos < it.pos
    · simp [hcA]
    · simp only [hcA, if_false]
      rw [if_neg]
      rintro ⟨h1, h2⟩
      exact absurd (hb it hit h1) (by omega)

theorem claim_C6_witness :
    (findItem [⟨1, 0, 0, 0⟩, ⟨2, 0, 1, 0⟩, ⟨3, 0, 2, 0⟩, ⟨4, 1, 0, 0⟩, ⟨5, 1, 1, 0⟩] 2 =
        some ⟨2, 0, 1, 0⟩) ∧
      (Item.coll ⟨2, 0, 1, 0⟩ ≠ 1) ∧
      (∀ it ∈ ([⟨1, 0, 0, 0⟩, ⟨2, 0, 1, 0⟩, ⟨3, 0, 2, 0⟩, ⟨4, 1, 0, 0⟩, ⟨5, 1, 1, 0⟩] : State),
        it.coll = 1 → it.pos <
          (collCount [⟨1, 0, 0, 0⟩, ⟨2, 0, 1, 0⟩, ⟨3, 0, 2, 0⟩, ⟨4, 1, 0, 0⟩, ⟨5, 1, 1, 0⟩] 1 : Int)) ∧
      ((updateOp [⟨1, 0, 0, 0⟩, ⟨2, 0, 1, 0⟩, ⟨3, 0, 2, 0⟩, ⟨4, 1, 0, 0⟩, ⟨5, 1, 1, 0⟩] 2 1
          (some 0) 9 =
        ([⟨1, 0, 0, 0⟩, ⟨2, 0, 1, 0⟩, ⟨3, 0, 2, 0⟩, ⟨4, 1, 0, 0⟩, ⟨5, 1, 1, 0⟩] : State).map
          (moveOut 2 (Item.coll ⟨2, 0, 1, 0⟩) 1 (Item.pos ⟨2, 0, 1, 0⟩)
            (resolvePos ((some (0 : Int)).getD (-1))
              (collCount [⟨1, 0, 0, 0⟩, ⟨2, 0, 1, 0⟩, ⟨3, 0, 2, 0⟩, ⟨4, 1, 0, 0⟩, ⟨5, 1, 1, 0⟩] 1)) 9)) ∧
       (updateOp [⟨1, 0, 0, 0⟩, ⟨2, 0, 1, 0⟩, ⟨3, 0, 2, 0⟩, ⟨4, 1, 0, 0⟩, ⟨5, 1, 1, 0⟩] 2 1 none 9 =
        ([⟨1, 0, 0, 0⟩, ⟨2, 0, 1, 0⟩, ⟨3, 0, 2, 0⟩, ⟨4, 1, 0, 0⟩, ⟨5, 1, 1, 0⟩] : State).map
          (fun it =>
            if it.pk = 2 then
              ⟨it.pk, 1,
                (collCount [⟨1, 0, 0, 0⟩, ⟨2, 0, 1, 0⟩, ⟨3, 0, 2, 0⟩, ⟨4, 1, 0, 0⟩, ⟨5, 1, 1, 0⟩] 1 : Int), 9⟩
            else if it.coll = Item.coll ⟨2, 0, 1, 0⟩ ∧ Item.pos ⟨2, 0, 1, 0⟩ < it.pos then
              ⟨it.pk, it.coll, it.pos - 1, 9⟩
            else it))) :=
  ⟨by decide, by decide, by decide,
    claim_C6_crossMove [⟨1, 0, 0, 0⟩, ⟨2, 0, 1, 0⟩, ⟨3, 0, 2, 0⟩, ⟨4, 1, 0, 0⟩, ⟨5, 1, 1, 0⟩]
      2 1 ⟨2, 0, 1, 0⟩ (some 0) 9 (by decide) (by decide) (by decide)⟩

/-- C8: saving an existing row with its position set to its own current
persisted value leaves every other row — position, collection and auto-now
stamp alike — exactly as it was: the reconciliation interval `[u, c)` with
`u = c` is empty, so the bulk update matches no row and stamps nothing. -/
theorem claim_C8_idempotent (s : State) (pk : Nat) (x : Item) (t : Nat)
    (hf : findItem s pk = some x) (h0 : 0 ≤ x.pos)
    (hN : x.pos ≤ (collCount s x.coll : Int) - 1) :
    (updateOp s pk x.coll (some x.pos) t).filter (fun it => it.pk != pk) =
      s.filter (fun it => it.pk != pk) := by
  rw [updateOp_sameColl s pk x x.pos t hf,
    resolvePos_exact x.pos ((collCount s x.coll : Int) - 1) h0 hN,
    List.filter_map]
  have hpk : ∀ it : Item, (reconcileMove pk x.coll x.pos x.pos t it).pk = it.pk := by
    intro it
    simp only [reconcileMove]
    split_ifs <;> rfl
  have hfil : List.filter ((fun it => it.pk != pk) ∘ reconcileMove pk x.coll x.pos x.pos t) s
      = List.filter (fun it => it.pk != pk) s :=
    List.filter_congr fun it _ => by simp [Function.comp, hpk it]
  rw [hfil]
  have hid : ∀ it ∈ List.filter (fun it => it.pk != pk) s,
      reconcileMove pk x.coll x.pos x.pos t it = it := by
    intro it hit
    have hne : it.pk ≠ pk := by simpa using (List.mem_filter.mp hit).2
    simp only [reconcileMove, hne, if_false]
    rw [if_neg, if_neg]
    · rintro ⟨h1, h2, h3⟩
      omega
    · rintro ⟨h1, h2, h3⟩
      omega
  rw [List.map_congr_left hid, List.map_id']

theorem claim_C8_witness :
    (findItem [⟨1, 0, 0, 0⟩, ⟨2, 0, 1, 0⟩, ⟨3, 0, 2, 0⟩] 2 = some ⟨2, 0, 1, 0⟩) ∧
      (0 ≤ Item.pos ⟨2, 0, 1, 0⟩) ∧
      (Item.pos ⟨2, 0, 1, 0⟩ ≤
        (collCount [⟨1, 0, 0, 0⟩, ⟨2, 0, 1, 0⟩, ⟨3, 0, 2, 0⟩]
          (Item.coll ⟨2, 0, 1, 0⟩) : Int) - 1) ∧
      (updateOp [⟨1, 0, 0, 0⟩, ⟨2, 0, 1, 0⟩, ⟨3, 0, 2, 0⟩] 2 (Item.coll ⟨2, 0, 1, 0⟩)
          (some (Item.pos ⟨2, 0, 1, 0⟩)) 9).filter (fun it => it.pk != 2) =
        ([⟨1, 0, 0, 0⟩, ⟨2, 0, 1, 0⟩, ⟨3, 0, 2, 0⟩] : State).filter (fun it => it.pk != 2) :=
  ⟨by decide, by decide, by decide,
    claim_C8_idempotent [⟨1, 0, 0, 0⟩, ⟨2, 0, 1, 0⟩, ⟨3, 0, 2, 0⟩] 2 ⟨2, 0, 1, 0⟩ 9
      (by decide) (by decide) (by decide)⟩

/-- C10: whenever resolution repositions a row, the resolved position lies
in `[0, maxPosition]` — never negative, never beyond the collection's size —
and in particular a created row is persisted exactly at
`resolvePos req count`, with `maxPosition` the full count for an insert
(`createOp`) or cross-collection move and `count - 1` for an existing
member (see `updateOp`). -/
theorem claim_C10_bounds (r m : Int) (hm : 0 ≤ m) :
    (0 ≤ resolvePos r m ∧ resolvePos r m ≤ m) ∧
    ∀ (s : State) (pk c : Nat) (req : Int) (t : Nat),
      (⟨pk, c, resolvePos req (collCount s c), t⟩ : Item) ∈ createOp s pk c req t := by
  refine ⟨resolvePos_bounds r m hm, ?_⟩
  intro s pk c req t
  by_cases hfast : req = -1 ∨ (collCount s c : Int) ≤ req
  · rw [createOp_fast s pk c req t hfast,
      resolvePos_append req _ (Int.natCast_nonneg _) hfast]
    exact List.mem_append_right _ (List.mem_singleton.mpr rfl)
  · simp only [createOp, insertRow, update_on_save]
    rw [if_neg hfast]
    simp only [Bool.or_false, if_pos]
    refine List.mem_map.mpr ⟨⟨pk, c, resolvePos req (collCount s c), t⟩, ?_, ?_⟩
    · exact List.mem_append_right _ (List.mem_singleton.mpr rfl)
    · rw [if_neg]
      rintro ⟨h1, _⟩
      exact h1 rfl

theorem claim_C10_witness :
    0 ≤ (5 : Int) ∧
      ((0 ≤ resolvePos (-7) 5 ∧ resolvePos (-7) 5 ≤ 5) ∧
       ∀ (s : State) (pk c : Nat) (req : Int) (t : Nat),
         (⟨pk, c, resolvePos req (collCount s c), t⟩ : Item) ∈ createOp s pk c req t) :=
  ⟨by decide, claim_C10_bounds (-7) 5 (by decide)⟩

/-! ## Claims C7 and C9: deletion and store failures

The instrumented pipelines agree with the pure ones when no failure is
injected. -/

theorem deleteOpE_ok (s : State) (pk : Nat) (t : Nat) :
    deleteOpE s pk t none none none = .ok (deleteOp s pk t) := by
  cases hf : findItem s pk with
  | none => simp [deleteOpE, deleteOp, hf]
  | some inst =>
    simp only [deleteOpE, deleteOp, hf]
    cases hsib : get_next_sibling s inst.coll inst.pos with
    | none => simp [update_on_delete]
    | some sib =>
      simp only [Option.map_some', update_on_delete]
      by_cases hz : sib.pk ≠ 0
      · rw [if_pos hz, if_pos hz]
        cases findItem (removeRow s pk) sib.pk <;> rfl
      · rw [if_neg hz, if_neg hz]

theorem updateOpE_ok (s : State) (pk B : Nat) (req : Option Int) (t : Nat)
    (sc : Int) (prev : Item) (hf : findItem s pk = some prev) :
    updateOpE s pk B req t sc none none none none = .ok (updateOp s pk B req t) := by
  simp only [updateOpE, updateOp, hf]
  by_cases hc : prev.coll ≠ B
  · simp only [if_pos hc]
  · simp only [if_neg hc]
    cases req <;> rfl

/-- C7: a completed delete of the row at position `x.pos` removes it and
decrements by one (and stamps) exactly the remaining members of its
collection with a strictly greater position, leaving every row of every
other collection untouched; when the captured next sibling cannot be
re-fetched after the delete the gap-closure is silently skipped (the
operation still succeeds and only the removal remains), and when no sibling
existed — `x.pos` was the highest position — the same map is the identity
on the survivors. -/
theorem claim_C7_delete (s : State) (pk : Nat) (x : Item) (t : Nat)
    (hf : findItem s pk = some x) (hnod : (pks s).Nodup)
    (hnz : ∀ p ∈ pks s, p ≠ 0) :
    (deleteOp s pk t = (s.filter (fun it => it.pk != pk)).map
      (fun it => if it.coll = x.coll ∧ x.pos < it.pos then
        ⟨it.pk, it.coll, it.pos - 1, t⟩ else it)) ∧
    (∀ e gErr, deleteOpE s pk t none (some e) gErr = .ok (removeRow s pk)) := by
  refine ⟨deleteOp_char s pk x t hf hnod hnz, fun e gErr => ?_⟩
  simp only [deleteOpE, hf]
  cases hsib : get_next_sibling s x.coll x.pos with
  | none => rfl
  | some sib =>
    have hsibs : sib ∈ s := (List.mem_filter.mp (List.mem_of_find?_eq_some hsib)).1
    have hsibnz : sib.pk ≠ 0 := hnz _ (mem_pks.mpr ⟨sib, hsibs, rfl⟩)
    simp only [Option.map_some', if_pos hsibnz]

theorem claim_C7_witness :
    (findItem [⟨1, 0, 0, 0⟩, ⟨2, 0, 1, 0⟩, ⟨3, 0, 2, 0⟩, ⟨4, 0, 3, 0⟩, ⟨5, 0, 4, 0⟩] 3 =
        some ⟨3, 0, 2, 0⟩) ∧
      (pks [⟨1, 0, 0, 0⟩, ⟨2, 0, 1, 0⟩, ⟨3, 0, 2, 0⟩, ⟨4, 0, 3, 0⟩, ⟨5, 0, 4, 0⟩]).Nodup ∧
      (∀ p ∈ pks [⟨1, 0, 0, 0⟩, ⟨2, 0, 1, 0⟩, ⟨3, 0, 2, 0⟩, ⟨4, 0, 3, 0⟩, ⟨5, 0, 4, 0⟩], p ≠ 0) ∧
      ((deleteOp [⟨1, 0, 0, 0⟩, ⟨2, 0, 1, 0⟩, ⟨3, 0, 2, 0⟩, ⟨4, 0, 3, 0⟩, ⟨5, 0, 4, 0⟩] 3 9 =
        (([⟨1, 0, 0, 0⟩, ⟨2, 0, 1, 0⟩, ⟨3, 0, 2, 0⟩, ⟨4, 0, 3, 0⟩, ⟨5, 0, 4, 0⟩] : State).filter
          (fun it => it.pk != 3)).map
          (fun it => if it.coll = Item.coll ⟨3, 0, 2, 0⟩ ∧ Item.pos ⟨3, 0, 2, 0⟩ < it.pos then
            ⟨it.pk, it.coll, it.pos - 1, 9⟩ else it)) ∧
       (∀ e gErr, deleteOpE [⟨1, 0, 0, 0⟩, ⟨2, 0, 1, 0⟩, ⟨3, 0, 2, 0⟩, ⟨4, 0, 3, 0⟩, ⟨5, 0, 4, 0⟩]
          3 9 none (some e) gErr =
          .ok (removeRow [⟨1, 0, 0, 0⟩, ⟨2, 0, 1, 0⟩, ⟨3, 0, 2, 0⟩, ⟨4, 0, 3, 0⟩, ⟨5, 0, 4, 0⟩] 3))) :=
  ⟨by decide, by decide, by decide,
    claim_C7_delete [⟨1, 0, 0, 0⟩, ⟨2, 0, 1, 0⟩, ⟨3, 0, 2, 0⟩, ⟨4, 0, 3, 0⟩, ⟨5, 0, 4, 0⟩]
      3 ⟨3, 0, 2, 0⟩ 9 (by decide) (by decide) (by decide)⟩

/-- C9: a store failure in the previous-record fetch (other than the caught
`ObjectDoesNotExist`), in the collection-exit bulk update, in the collection
count, in the reconciliation bulk update, or in the deletion gap-closure
bulk update surfaces to the caller unchanged — same error, no retry, no
reinterpretation; the only locally recovered conditions are the
previous-record not-found (which degrades to the insert path and still
succeeds) and the sibling-lookup conditions of a delete (a failed sibling
read or re-fetch is swallowed and the gap-closure merely skipped). -/
theorem claim_C9_errors :
    (∀ (s : State) (pk B : Nat) (req : Option Int) (t : Nat) (sc : Int)
        (e : Nat) (r c rr : Option Nat),
      updateOpE s pk B req t sc (some e) r c rr = .error e) ∧
    (∀ (s : State) (pk B : Nat) (req : Option Int) (t : Nat) (sc : Int)
        (e : Nat) (c rr : Option Nat) (prev : Item),
      findItem s pk = some prev → prev.coll ≠ B →
      updateOpE s pk B req t sc none (some e) c rr = .error e) ∧
    (∀ (s : State) (pk B : Nat) (r : Int) (t : Nat) (sc : Int)
        (e : Nat) (rr : Option Nat) (prev : Item),
      findItem s pk = some prev → prev.coll = B →
      updateOpE s pk B (some r) t sc none none (some e) rr = .error e) ∧
    (∀ (s : State) (pk B : Nat) (r : Int) (t : Nat) (sc : Int)
        (e : Nat) (prev : Item),
      findItem s pk = some prev → prev.coll = B →
      updateOpE s pk B (some r) t sc none none none (some e) = .error e) ∧
    (∀ (s : State) (pk B : Nat) (req : Option Int) (t : Nat) (sc : Int),
      findItem s pk = none →
      ∃ s', updateOpE s pk B req t sc none none none none = .ok s') ∧
    (∀ (s : State) (pk : Nat) (t : Nat) (e : Nat) (rf g : Option Nat) (x : Item),
      findItem s pk = some x →
      deleteOpE s pk t (some e) rf g = .ok (removeRow s pk)) ∧
    (∀ (s : State) (pk : Nat) (t : Nat) (e : Nat) (x sib : Item),
      findItem s pk = some x → (pks s).Nodup → (∀ p ∈ pks s, p ≠ 0) →
      get_next_sibling s x.coll x.pos = some sib →
      deleteOpE s pk t none none (some e) = .error e) := by
  refine ⟨fun s pk B req t sc e r c rr => rfl, ?_, ?_, ?_, ?_, ?_, ?_⟩
  · intro s pk B req t sc e c rr prev hf hc
    simp only [updateOpE, hf, if_pos hc]
  · intro s pk B r t sc e rr prev hf hc
    have hc' : ¬(prev.coll ≠ B) := fun h => h hc
    simp only [updateOpE, hf, if_neg hc']
  · intro s pk B r t sc e prev hf hc
    have hc' : ¬(prev.coll ≠ B) := fun h => h hc
    simp only [updateOpE, hf, if_neg hc']
  · intro s pk B req t sc hf
    simp only [updateOpE, hf]
    by_cases hfast : req.getD sc = -1 ∨ (collCount s B : Int) ≤ req.getD sc
    · exact ⟨_, by rw [if_pos hfast]⟩
    · exact ⟨_, by rw [if_neg hfast]⟩
  · intro s pk t e rf g x hf
    simp only [deleteOpE, hf]
  · intro s pk t e x sib hf hnod hnz hsib
    have hsibmem : sib ∈ get_collection s x.coll := List.mem_of_find?_eq_some hsib
    have hsibpos : x.pos < sib.pos := by simpa using List.find?_some hsib
    have hsibs : sib ∈ s := (List.mem_filter.mp hsibmem).1
    have hx := findItem_eq_some hf
    have hsibne : sib.pk ≠ pk := by
      intro he
      have heq : sib = x := eq_of_pk_eq hnod hsibs hx.1 (he.trans hx.2.symm)
      rw [heq] at hsibpos
      omega
    have hsibnz : sib.pk ≠ 0 := hnz _ (mem_pks.mpr ⟨sib, hsibs, rfl⟩)
    have href : findItem (removeRow s pk) sib.pk = some sib := by
      have hmem' : sib ∈ removeRow s pk :=
        List.mem_filter.mpr ⟨hsibs, by simp [hsibne]⟩
      exact findItem_of_mem (pks_removeRow_nodup hnod pk) hmem'
    simp only [deleteOpE, hf, hsib, Option.map_some', if_pos hsibnz, href]

theorem claim_C9_witness :
    updateOpE [⟨1, 0, 0, 0⟩] 1 0 (some 0) 5 0 (some 42) none none none = .error 42 ∧
    updateOpE [⟨1, 0, 0, 0⟩] 1 1 none 5 0 none (some 7) none none = .error 7 ∧
    updateOpE [⟨1, 0, 0, 0⟩] 1 0 (some 0) 5 0 none none (some 8) none = .error 8 ∧
    updateOpE [⟨1, 0, 0, 0⟩] 1 0 (some 0) 5 0 none none none (some 9) = .error 9 ∧
    (∃ s', updateOpE [⟨1, 0, 0, 0⟩] 2 0 none 5 0 none none none none = .ok s') ∧
    deleteOpE [⟨1, 0, 0, 0⟩, ⟨2, 0, 1, 0⟩] 1 5 (some 3) none none =
      .ok (removeRow [⟨1, 0, 0, 0⟩, ⟨2, 0, 1, 0⟩] 1) ∧
    deleteOpE [⟨1, 0, 0, 0⟩, ⟨2, 0, 1, 0⟩] 1 5 none none (some 4) = .error 4 :=
  ⟨claim_C9_errors.1 [⟨1, 0, 0, 0⟩] 1 0 (some 0) 5 0 42 none none none,
   claim_C9_errors.2.1 [⟨1, 0, 0, 0⟩] 1 1 none 5 0 7 none none ⟨1, 0, 0, 0⟩
     (by decide) (by decide),
   claim_C9_errors.2.2.1 [⟨1, 0, 0, 0⟩] 1 0 0 5 0 8 none ⟨1, 0, 0, 0⟩
     (by decide) (by decide),
   claim_C9_errors.2.2.2.1 [⟨1, 0, 0, 0⟩] 1 0 0 5 0 9 ⟨1, 0, 0, 0⟩
     (by decide) (by decide),
   claim_C9_errors.2.2.2.2.1 [⟨1, 0, 0, 0⟩] 2 0 none 5 0 (by decide),
   claim_C9_errors.2.2.2.2.2.1 [⟨1, 0, 0, 0⟩, ⟨2, 0, 1, 0⟩] 1 5 3 none none
     ⟨1, 0, 0, 0⟩ (by decide),
   claim_C9_errors.2.2.2.2.2.2 [⟨1, 0, 0, 0⟩, ⟨2, 0, 1, 0⟩] 1 5 4 ⟨1, 0, 0, 0⟩
     ⟨2, 0, 1, 0⟩ (by decide) (by decide) (by decide) (by decide)⟩

/-! ## Invariant preservation (claim C1) -/

theorem mem_rangeMS {q : Int} {n : Nat} : q ∈ rangeMS n ↔ 0 ≤ q ∧ q < (n : Int) := by
  simp only [rangeMS, Multiset.mem_map, Multiset.mem_range]
  constructor
  · rintro ⟨a, ha, rfl⟩
    omega
  · rintro ⟨h0, hn⟩
    exact ⟨q.toNat, by omega, by omega⟩

theorem rangeMS_succ (n : Nat) : rangeMS (n + 1) = (n : Int) ::ₘ rangeMS n := by
  simp [rangeMS, Multiset.range_succ]

theorem rangeMS_map_id_of (n : Nat) (f : Int → Int)
    (h : ∀ q, 0 ≤ q → q < (n : Int) → f q = q) : (rangeMS n).map f = rangeMS n := by
  have h2 : (rangeMS n).map f = (rangeMS n).map id :=
    Multiset.map_congr rfl fun q hq => by
      have := mem_rangeMS.mp hq
      exact h q this.1 this.2
  simpa using h2

theorem rangeMS_open (n : Nat) (u : Int) (h0 : 0 ≤ u) (hn : u ≤ (n : Int)) :
    u ::ₘ (rangeMS n).map (fun q => if u ≤ q then q + 1 else q) = rangeMS (n + 1) := by
  induction n with
  | zero =>
    have hu : u = 0 := by omega
    subst hu
    simp [rangeMS, Multiset.range_succ]
  | succ n ih =>
    by_cases hu : u ≤ (n : Int)
    · rw [rangeMS_succ n, Multiset.map_cons, if_pos hu, Multiset.cons_swap, ih hu,
        rangeMS_succ (n + 1)]
      push_cast
      ring_nf
    · have hun : u = (n : Int) + 1 := by omega
      rw [rangeMS_map_id_of (n + 1) _ (fun q hq0 hqn => if_neg (by push_cast at hqn ⊢; omega)),
        hun, rangeMS_succ (n + 1)]
      push_cast
      ring_nf

theorem rangeMS_close (n : Nat) (c : Int) (h0 : 0 ≤ c) (hn : c < (n : Int) + 1) :
    ((rangeMS (n + 1)).erase c).map (fun q => if c < q then q - 1 else q) = rangeMS n := by
  induction n with
  | zero =>
    have hc : c = 0 := by omega
    subst hc
    simp [rangeMS, Multiset.range_succ]
  | succ n ih =>
    by_cases hc : c = (n : Int) + 1
    · rw [rangeMS_succ (n + 1), show ((n + 1 : Nat) : Int) = c from by push_cast; omega,
        Multiset.erase_cons_head]
      exact rangeMS_map_id_of (n + 1) _ fun q hq0 hqn => if_neg (by push_cast at hqn ⊢; omega)
    · have hcn : c < (n : Int) + 1 := by omega
      rw [rangeMS_succ (n + 1),
        Multiset.erase_cons_tail _ (show ((n + 1 : Nat) : Int) ≠ c from by push_cast; omega),
        Multiset.map_cons, if_pos (show c < ((n + 1 : Nat) : Int) from by push_cast; omega),
        ih hcn, show ((n + 1 : Nat) : Int) - 1 = (n : Int) from by push_cast; ring,
        ← rangeMS_succ n]


theorem rangeMS_moveRight (n : Nat) (c u : Int) (h0 : 0 ≤ c) (hcu : c < u)
    (hun : u < (n : Int) + 1) :
    u ::ₘ ((rangeMS (n + 1)).erase c).map
      (fun q => if c < q ∧ q ≤ u then q - 1 else q) = rangeMS (n + 1) := by
  have hmap : ((rangeMS (n + 1)).erase c).map (fun q => if c < q ∧ q ≤ u then q - 1 else q)
      = (((rangeMS (n + 1)).erase c).map (fun q => if c < q then q - 1 else q)).map
          (fun y => if u ≤ y then y + 1 else y) := by
    rw [Multiset.map_map]
    exact Multiset.map_congr rfl fun q _ => by
      simp only [Function.comp]
      split_ifs <;> omega
  rw [hmap, rangeMS_close n c h0 (by omega)]
  exact rangeMS_open n u (by omega) (by omega)

theorem rangeMS_moveLeft (n : Nat) (c u : Int) (h0 : 0 ≤ u) (huc : u < c)
    (hcn : c < (n : Int) + 1) :
    u ::ₘ ((rangeMS (n + 1)).erase c).map
      (fun q => if q < c ∧ u ≤ q then q + 1 else q) = rangeMS (n + 1) := by
  induction n with
  | zero => omega
  | succ n ih =>
    by_cases hc : c = (n : Int) + 1
    · rw [rangeMS_succ (n + 1), show ((n + 1 : Nat) : Int) = c from by push_cast; omega,
        Multiset.erase_cons_head]
      have hcongr : (rangeMS (n + 1)).map (fun q => if q < c ∧ u ≤ q then q + 1 else q)
          = (rangeMS (n + 1)).map (fun q => if u ≤ q then q + 1 else q) :=
        Multiset.map_congr rfl fun q hq => by
          have := mem_rangeMS.mp hq
          by_cases h2 : u ≤ q
          · rw [if_pos ⟨by push_cast at this ⊢; omega, h2⟩, if_pos h2]
          · rw [if_neg (fun hh => h2 hh.2), if_neg h2]
      rw [hcongr, show c = ((n + 1 : Nat) : Int) from by push_cast; omega,
        ← rangeMS_succ (n + 1)]
      exact rangeMS_open (n + 1) u h0 (by push_cast; omega)
    · have hcn' : c < (n : Int) + 1 := by omega
      rw [rangeMS_succ (n + 1),
        Multiset.erase_cons_tail _ (show ((n + 1 : Nat) : Int) ≠ c from by push_cast; omega),
        Multiset.map_cons,
        if_neg (show ¬(((n + 1 : Nat) : Int) < c ∧ u ≤ ((n + 1 : Nat) : Int)) from by
          push_cast; omega),
        Multiset.cons_swap, ih hcn', ← rangeMS_succ (n + 1)]


theorem posMS_cons (a : Item) (s : State) (c : Nat) :
    posMS (a :: s) c = if a.coll = c then a.pos ::ₘ posMS s c else posMS s c := by
  simp only [posMS, get_collection, List.filter_cons]
  by_cases h : a.coll = c <;> simp [h]

theorem collCount_cons (a : Item) (s : State) (c : Nat) :
    collCount (a :: s) c = (if a.coll = c then 1 else 0) + collCount s c := by
  simp only [collCount, get_collection, List.filter_cons]
  by_cases h : a.coll = c <;> simp [h] <;> omega

theorem posMS_append (s₁ s₂ : State) (c : Nat) :
    posMS (s₁ ++ s₂) c = posMS s₁ c + posMS s₂ c := by
  simp [posMS, get_collection, List.filter_append]

theorem collCount_append (s₁ s₂ : State) (c : Nat) :
    collCount (s₁ ++ s₂) c = collCount s₁ c + collCount s₂ c := by
  simp [collCount, get_collection, List.filter_append]

theorem posMS_perm {s s' : State} (h : s.Perm s') (c : Nat) :
    posMS s c = posMS s' c := by
  simp only [posMS, get_collection]
  exact Multiset.coe_eq_coe.mpr ((h.filter _).map _)

theorem collCount_perm {s s' : State} (h : s.Perm s') (c : Nat) :
    collCount s c = collCount s' c := by
  simp only [collCount, get_collection]
  exact (h.filter _).length_eq

theorem pks_map (s : State) (f : Item → Item) (h : ∀ it, (f it).pk = it.pk) :
    pks (s.map f) = pks s := by
  simp only [pks, List.map_map]
  exact List.map_congr_left fun it _ => h it

theorem pks_perm {s s' : State} (h : s.Perm s') : (pks s).Perm (pks s') :=
  h.map _

theorem posMS_map_shift (s : State) (f : Item → Item) (g : Int → Int) (c : Nat)
    (hcoll : ∀ it ∈ s, (f it).coll = it.coll)
    (hpos : ∀ it ∈ s, it.coll = c → (f it).pos = g it.pos) :
    posMS (s.map f) c = (posMS s c).map g := by
  induction s with
  | nil => rfl
  | cons a l ih =>
    rw [List.map_cons, posMS_cons, posMS_cons]
    have hca := hcoll a (List.mem_cons_self a l)
    by_cases h : a.coll = c
    · rw [if_pos (hca.trans h), if_pos h, Multiset.map_cons, hpos a (List.mem_cons_self a l) h,
        ih (fun it hit => hcoll it (List.mem_cons_of_mem a hit))
          (fun it hit => hpos it (List.mem_cons_of_mem a hit))]
    · rw [if_neg (fun hh => h (hca ▸ hh)), if_neg h,
        ih (fun it hit => hcoll it (List.mem_cons_of_mem a hit))
          (fun it hit => hpos it (List.mem_cons_of_mem a hit))]

theorem posMS_map_id (s : State) (f : Item → Item) (c : Nat)
    (hcoll : ∀ it ∈ s, (f it).coll = it.coll)
    (hpos : ∀ it ∈ s, it.coll = c → (f it).pos = it.pos) :
    posMS (s.map f) c = posMS s c := by
  rw [posMS_map_shift s f id c hcoll hpos]
  simp

theorem pos_mem_posMS {s : State} {x : Item} (hx : x ∈ s) : x.pos ∈ posMS s x.coll := by
  simp only [posMS, get_collection, Multiset.mem_coe, List.mem_map]
  exact ⟨x, List.mem_filter.mpr ⟨hx, by simp⟩, rfl⟩

theorem collCount_pos {s : State} {x : Item} (hx : x ∈ s) : 1 ≤ collCount s x.coll := by
  have : x ∈ get_collection s x.coll := List.mem_filter.mpr ⟨hx, by simp⟩
  exact List.length_pos.mpr (fun he => by simp [he] at this)

theorem member_pos_bounds {s : State} {x : Item} (hx : x ∈ s)
    (hd : denseAt s x.coll) : 0 ≤ x.pos ∧ x.pos < (collCount s x.coll : Int) := by
  have hm := pos_mem_posMS hx
  rw [denseAt] at hd
  rw [hd] at hm
  exact mem_rangeMS.mp hm


theorem posMS_single (a : Item) (c : Nat) :
    posMS [a] c = if a.coll = c then ({a.pos} : Multiset Int) else 0 := by
  by_cases h : a.coll = c <;> simp [posMS, get_collection, h]

theorem collCount_single (a : Item) (c : Nat) :
    collCount [a] c = if a.coll = c then 1 else 0 := by
  by_cases h : a.coll = c <;> simp [collCount, get_collection, h]

theorem pks_append_single (s : State) (a : Item) :
    pks (s ++ [a]) = pks s ++ [a.pk] := by
  simp [pks]

theorem nodup_pks_append {s : State} {a : Item} (hnod : (pks s).Nodup)
    (hpk : a.pk ∉ pks s) : (pks (s ++ [a])).Nodup := by
  rw [pks_append_single, List.nodup_append]
  exact ⟨hnod, List.nodup_singleton a.pk, fun q hq hq' =>
    hpk ((List.mem_singleton.mp hq') ▸ hq)⟩

theorem WF_createOp (s : State) (pk c : Nat) (req : Int) (t : Nat)
    (hwf : WF s) (hpk : pk ∉ pks s) (hnzpk : pk ≠ 0) :
    WF (createOp s pk c req t) := by
  obtain ⟨hnod, hnz, hdense⟩ := hwf
  by_cases hfast : req = -1 ∨ (collCount s c : Int) ≤ req
  · rw [createOp_fast s pk c req t hfast]
    refine ⟨nodup_pks_append hnod hpk, ?_, ?_⟩
    · intro q hq
      rw [pks_append_single, List.mem_append] at hq
      rcases hq with h | h
      · exact hnz q h
      · exact (List.mem_singleton.mp h) ▸ hnzpk
    · intro c'
      rw [denseAt, posMS_append, collCount_append, posMS_single, collCount_single]
      by_cases hc : c = c'
      · rw [if_pos hc, if_pos hc, hc, hdense c', add_comm, Multiset.singleton_add,
          ← rangeMS_succ]
      · rw [if_neg hc, if_neg hc, add_zero, add_zero]
        exact hdense c'
  · rw [createOp_insert s pk c req t hfast hpk]
    obtain ⟨hp0, hpN⟩ := resolvePos_bounds req (collCount s c : Int) (Int.natCast_nonneg _)
    set p := resolvePos req (collCount s c : Int) with hpdef
    set f : Item → Item := fun it =>
      if it.coll = c ∧ p ≤ it.pos then ⟨it.pk, it.coll, it.pos + 1, t⟩ else it with hfdef
    have hfpk : ∀ it : Item, (f it).pk = it.pk := fun it => by
      rw [hfdef]
      dsimp only
      split_ifs <;> rfl
    have hfcoll : ∀ it : Item, (f it).coll = it.coll := fun it => by
      rw [hfdef]
      dsimp only
      split_ifs <;> rfl
    have hpks : pks (s.map f ++ [(⟨pk, c, p, t⟩ : Item)]) = pks s ++ [pk] := by
      rw [pks_append_single, pks_map s f hfpk]
    refine ⟨?_, ?_, ?_⟩
    · rw [hpks, List.nodup_append]
      exact ⟨hnod, List.nodup_singleton pk, fun q hq hq' =>
        hpk ((List.mem_singleton.mp hq') ▸ hq)⟩
    · intro q hq
      rw [hpks, List.mem_append] at hq
      rcases hq with h | h
      · exact hnz q h
      · exact (List.mem_singleton.mp h) ▸ hnzpk
    · intro c'
      rw [denseAt, posMS_append, collCount_append, posMS_single, collCount_single,
        collCount_map_congr s f c' (fun it _ => hfcoll it)]
      by_cases hc : c = c'
      · subst hc
        rw [if_pos rfl, if_pos rfl]
        rw [posMS_map_shift s f (fun q => if p ≤ q then q + 1 else q) c
          (fun it _ => hfcoll it)
          (fun it _ hcoll => by
            rw [hfdef]
            dsimp only
            by_cases h2 : p ≤ it.pos
            · rw [if_pos ⟨hcoll, h2⟩, if_pos h2]
            · rw [if_neg (fun hh => h2 hh.2), if_neg h2])]
        rw [hdense c, add_comm, Multiset.singleton_add]
        exact rangeMS_open (collCount s c) p hp0 hpN
      · rw [if_neg hc, if_neg hc, add_zero, add_zero]
        rw [posMS_map_id s f c' (fun it _ => hfcoll it)
          (fun it _ hc' => by
            rw [hfdef]
            dsimp only
            rw [if_neg]
            rintro ⟨h1, _⟩
            exact hc (h1.symm.trans hc'))]
        exact hdense c'


theorem WF_writeRow_self (s : State) (pk : Nat) (x : Item) (t : Nat)
    (hf : findItem s pk = some x) (hwf : WF s) :
    WF (writeRow s pk x.coll x.pos t) := by
  obtain ⟨hnod, hnz, hdense⟩ := hwf
  have hx := findItem_eq_some hf
  simp only [writeRow]
  set f : Item → Item := fun it =>
    if it.pk = pk then ⟨it.pk, x.coll, x.pos, t⟩ else it with hfdef
  have hfpk : ∀ it : Item, (f it).pk = it.pk := fun it => by
    rw [hfdef]
    dsimp only
    split_ifs <;> rfl
  have hid : ∀ it ∈ s, (f it).coll = it.coll ∧ (f it).pos = it.pos := by
    intro it hit
    by_cases hp : it.pk = pk
    · have heq : it = x := eq_of_pk_eq hnod hit hx.1 (hp.trans hx.2.symm)
      rw [hfdef]
      dsimp only
      rw [if_pos hp, heq]
      exact ⟨rfl, rfl⟩
    · rw [hfdef]
      dsimp only
      rw [if_neg hp]
      exact ⟨rfl, rfl⟩
  refine ⟨?_, ?_, ?_⟩
  · rw [pks_map s f hfpk]
    exact hnod
  · intro q hq
    rw [pks_map s f hfpk] at hq
    exact hnz q hq
  · intro c'
    rw [denseAt, posMS_map_id s f c' (fun it hit => (hid it hit).1)
        (fun it hit _ => (hid it hit).2),
      collCount_map_congr s f c' (fun it hit => (hid it hit).1)]
    exact hdense c'

theorem WF_update_sameColl (s : State) (pk : Nat) (x : Item) (r : Int) (t : Nat)
    (hf : findItem s pk = some x) (hwf : WF s) :
    WF (updateOp s pk x.coll (some r) t) := by
  obtain ⟨hnod, hnz, hdense⟩ := hwf
  have hx := findItem_eq_some hf
  rw [updateOp_sameColl s pk x r t hf]
  have hN1 : 1 ≤ collCount s x.coll := collCount_pos hx.1
  obtain ⟨hu0, huN⟩ := resolvePos_bounds r ((collCount s x.coll : Int) - 1) (by omega)
  set N := collCount s x.coll with hN
  set u := resolvePos r ((N : Int) - 1) with hu
  obtain ⟨hc0, hcN⟩ := member_pos_bounds hx.1 (hdense x.coll)
  set F := reconcileMove pk x.coll x.pos u t with hF
  have hFpk : ∀ it : Item, (F it).pk = it.pk := fun it => by
    rw [hF]
    simp only [reconcileMove]
    split_ifs <;> rfl
  have hFcoll : ∀ it ∈ s, (F it).coll = it.coll := by
    intro it hit
    by_cases hp : it.pk = pk
    · have heq : it = x := eq_of_pk_eq hnod hit hx.1 (hp.trans hx.2.symm)
      rw [hF]
      simp only [reconcileMove, if_pos hp]
      rw [heq]
    · rw [hF]
      simp only [reconcileMove, if_neg hp]
      split_ifs <;> rfl
  have hperm := List.perm_cons_erase hx.1
  set s' := s.erase x with hs'
  have hs'sub : ∀ y ∈ s', y ∈ s := fun y hy => List.mem_of_mem_erase hy
  have hs'pk : ∀ y ∈ s', y.pk ≠ pk := fun y hy => by
    have h := erase_pk_ne hnod hx.1 hy
    rw [hx.2] at h
    exact h
  have hFx : F x = ⟨x.pk, x.coll, u, t⟩ := by
    rw [hF]
    simp [reconcileMove, hx.2]
  refine ⟨?_, ?_, ?_⟩
  · rw [pks_map s F hFpk]
    exact hnod
  · intro q hq
    rw [pks_map s F hFpk] at hq
    exact hnz q hq
  · intro c'
    have hcc' := collCount_map_congr s F c' hFcoll
    by_cases hc' : c' = x.coll
    · subst hc'
      have h1 : posMS (s.map F) x.coll = u ::ₘ posMS (s'.map F) x.coll := by
        rw [posMS_perm (hperm.map F) x.coll, List.map_cons, hFx, posMS_cons]
        simp
      have h2 : posMS (s'.map F) x.coll = (posMS s' x.coll).map
          (fun q => if x.pos < q ∧ q ≤ u then q - 1
            else if q < x.pos ∧ u ≤ q then q + 1 else q) := by
        refine posMS_map_shift s' F _ x.coll (fun it hit => hFcoll it (hs'sub it hit)) ?_
        intro it hit hcoll
        rw [hF]
        simp only [reconcileMove, if_neg (hs'pk it hit)]
        by_cases hb1 : x.pos < it.pos ∧ it.pos ≤ u
        · rw [if_pos ⟨hcoll, hb1.1, hb1.2⟩, if_pos hb1]
        · rw [if_neg (fun hh => hb1 ⟨hh.2.1, hh.2.2⟩), if_neg hb1]
          by_cases hb2 : it.pos < x.pos ∧ u ≤ it.pos
          · rw [if_pos ⟨hcoll, hb2.1, hb2.2⟩, if_pos hb2]
          · rw [if_neg (fun hh => hb2 ⟨hh.2.1, hh.2.2⟩), if_neg hb2]
      have h3 : posMS s x.coll = x.pos ::ₘ posMS s' x.coll := by
        rw [posMS_perm hperm x.coll, posMS_cons, if_pos rfl]
      have hmem : x.pos ∈ rangeMS N := mem_rangeMS.mpr ⟨hc0, hcN⟩
      have h4 : posMS s' x.coll = (rangeMS N).erase x.pos := by
        have hd := hdense x.coll
        rw [denseAt] at hd
        rw [h3] at hd
        rw [← Multiset.cons_erase hmem] at hd
        exact (Multiset.cons_inj_right _).mp hd
      rw [denseAt, hcc', h1, h2, h4, ← hN]
      obtain ⟨m, hm⟩ : ∃ m, N = m + 1 := ⟨N - 1, by omega⟩
      rw [hm]
      rcases lt_trichotomy x.pos u with hlt | heq | hgt
      · have hcg : ((rangeMS (m + 1)).erase x.pos).map
            (fun q => if x.pos < q ∧ q ≤ u then q - 1
              else if q < x.pos ∧ u ≤ q then q + 1 else q)
            = ((rangeMS (m + 1)).erase x.pos).map
              (fun q => if x.pos < q ∧ q ≤ u then q - 1 else q) :=
          Multiset.map_congr rfl fun q _ => by split_ifs <;> omega
        rw [hcg]
        exact rangeMS_moveRight m x.pos u hc0 hlt (by push_cast; omega)
      · have hcg : ((rangeMS (m + 1)).erase x.pos).map
            (fun q => if x.pos < q ∧ q ≤ u then q - 1
              else if q < x.pos ∧ u ≤ q then q + 1 else q)
            = ((rangeMS (m + 1)).erase x.pos).map (fun q => q) :=
          Multiset.map_congr rfl fun q _ => by split_ifs <;> omega
        rw [hcg, Multiset.map_id', ← heq]
        exact Multiset.cons_erase (by rw [← hm]; exact hmem)
      · have hcg : ((rangeMS (m + 1)).erase x.pos).map
            (fun q => if x.pos < q ∧ q ≤ u then q - 1
              else if q < x.pos ∧ u ≤ q then q + 1 else q)
            = ((rangeMS (m + 1)).erase x.pos).map
              (fun q => if q < x.pos ∧ u ≤ q then q + 1 else q) :=
          Multiset.map_congr rfl fun q _ => by split_ifs <;> omega
        rw [hcg]
        exact rangeMS_moveLeft m x.pos u hu0 hgt (by push_cast; omega)
    · rw [denseAt, hcc']
      rw [posMS_map_id s F c' hFcoll ?_]
      · exact hdense c'
      · intro it hit hitc
        by_cases hp : it.pk = pk
        · have heq : it = x := eq_of_pk_eq hnod hit hx.1 (hp.trans hx.2.symm)
          exact absurd ((heq ▸ hitc : x.coll = c').symm) hc'
        · rw [hF]
          simp only [reconcileMove, if_neg hp]
          have hb1 : ¬(it.coll = x.coll ∧ x.pos < it.pos ∧ it.pos ≤ u) := by
            rintro ⟨h1, _⟩
            exact hc' (hitc.symm.trans h1)
          have hb2 : ¬(it.coll = x.coll ∧ it.pos < x.pos ∧ u ≤ it.pos) := by
            rintro ⟨h1, _⟩
            exact hc' (hitc.symm.trans h1)
          rw [if_neg hb1, if_neg hb2]


theorem WF_update_moveColl (s : State) (pk B : Nat) (x : Item) (req : Option Int)
    (t : Nat) (hf : findItem s pk = some x) (hAB : x.coll ≠ B) (hwf : WF s) :
    WF (updateOp s pk B req t) := by
  obtain ⟨hnod, hnz, hdense⟩ := hwf
  have hx := findItem_eq_some hf
  rw [updateOp_moveColl s pk B x req t hf hAB]
  obtain ⟨hu0, huN⟩ := resolvePos_bounds (req.getD (-1)) (collCount s B : Int)
    (Int.natCast_nonneg _)
  set NB := collCount s B with hNB
  set u := resolvePos (req.getD (-1)) (NB : Int) with hu
  have hNA1 : 1 ≤ collCount s x.coll := collCount_pos hx.1
  obtain ⟨hc0, hcN⟩ := member_pos_bounds hx.1 (hdense x.coll)
  set NA := collCount s x.coll with hNA
  set F := moveOut pk x.coll B x.pos u t with hF
  have hFpk : ∀ it : Item, (F it).pk = it.pk := fun it => by
    rw [hF]
    simp only [moveOut]
    split_ifs <;> rfl
  have hperm := List.perm_cons_erase hx.1
  set s' := s.erase x with hs'
  have hs'sub : ∀ y ∈ s', y ∈ s := fun y hy => List.mem_of_mem_erase hy
  have hs'pk : ∀ y ∈ s', y.pk ≠ pk := fun y hy => by
    have h := erase_pk_ne hnod hx.1 hy
    rw [hx.2] at h
    exact h
  have hFx : F x = ⟨x.pk, B, u, t⟩ := by
    rw [hF]
    simp [moveOut, hx.2]
  have hF'coll : ∀ y ∈ s', (F y).coll = y.coll := fun y hy => by
    rw [hF]
    simp only [moveOut, if_neg (hs'pk y hy)]
    split_ifs <;> rfl
  refine ⟨?_, ?_, ?_⟩
  · rw [pks_map s F hFpk]
    exact hnod
  · intro q hq
    rw [pks_map s F hFpk] at hq
    exact hnz q hq
  · intro c'
    have hP : posMS (s.map F) c' = posMS (F x :: s'.map F) c' := by
      rw [posMS_perm (hperm.map F) c', List.map_cons]
    have hC : collCount (s.map F) c' = collCount (F x :: s'.map F) c' := by
      rw [collCount_perm (hperm.map F) c', List.map_cons]
    have hCs' : collCount (s'.map F) c' = collCount s' c' :=
      collCount_map_congr s' F c' hF'coll
    have hCsplit : collCount s c' = (if x.coll = c' then 1 else 0) + collCount s' c' := by
      rw [collCount_perm hperm c', collCount_cons]
    by_cases hcA : c' = x.coll
    · subst hcA
      rw [denseAt, hP, hC, posMS_cons, collCount_cons, hFx,
        if_neg (show ¬(⟨x.pk, B, u, t⟩ : Item).coll = x.coll from fun h => hAB h.symm),
        if_neg (show ¬(⟨x.pk, B, u, t⟩ : Item).coll = x.coll from fun h => hAB h.symm),
        hCs']
      rw [posMS_map_shift s' F (fun q => if x.pos < q then q - 1 else q) x.coll hF'coll ?_]
      · have h3 : posMS s x.coll = x.pos ::ₘ posMS s' x.coll := by
          rw [posMS_perm hperm x.coll, posMS_cons, if_pos rfl]
        have hmem : x.pos ∈ rangeMS NA := mem_rangeMS.mpr ⟨hc0, hcN⟩
        have h4 : posMS s' x.coll = (rangeMS NA).erase x.pos := by
          have hd := hdense x.coll
          rw [denseAt] at hd
          rw [h3] at hd
          rw [← Multiset.cons_erase hmem] at hd
          exact (Multiset.cons_inj_right _).mp hd
        have hCA : collCount s' x.coll = NA - 1 := by
          rw [if_pos rfl] at hCsplit
          omega
        rw [h4, hCA]
        obtain ⟨m, hm⟩ : ∃ m, NA = m + 1 := ⟨NA - 1, by omega⟩
        rw [hm, Nat.add_sub_cancel]
        rw [show (0 : Nat) + m = m from by omega]
        exact rangeMS_close m x.pos hc0 (by push_cast; omega)
      · intro it hit hcoll
        rw [hF]
        simp only [moveOut, if_neg (hs'pk it hit)]
        by_cases hgt : x.pos < it.pos
        · rw [if_pos ⟨hcoll, hgt⟩, if_pos hgt]
        · rw [if_neg (fun hh => hgt hh.2), if_neg hgt, if_neg]
          rintro ⟨h1, _⟩
          exact hAB (hcoll.symm.trans h1)
    · by_cases hcB : c' = B
      · rw [hcB] at hP hC hCs' hCsplit ⊢
        rw [denseAt, hP, hC, posMS_cons, collCount_cons, hFx, if_pos rfl, if_pos rfl,
          hCs']
        rw [posMS_map_shift s' F (fun q => if u ≤ q then q + 1 else q) B hF'coll ?_]
        · have h5 : posMS s' B = posMS s B := by
            have hps := posMS_perm hperm B
            rw [posMS_cons, if_neg hAB] at hps
            exact hps.symm
          have hCB' : collCount s' B = NB := by
            rw [if_neg hAB] at hCsplit
            omega
          have hd := hdense B
          rw [denseAt] at hd
          rw [h5, hd, hCB', show (1 : Nat) + NB = NB + 1 from by omega]
          exact rangeMS_open NB u hu0 huN
        · intro it hit hcoll
          rw [hF]
          simp only [moveOut, if_neg (hs'pk it hit)]
          rw [if_neg (fun hh => hAB (hh.1.symm.trans hcoll))]
          by_cases h2 : u ≤ it.pos
          · rw [if_pos ⟨hcoll, h2⟩, if_pos h2]
          · rw [if_neg (fun hh => h2 hh.2), if_neg h2]
      · rw [denseAt, hP, hC, posMS_cons, collCount_cons, hFx,
          if_neg (show ¬(⟨x.pk, B, u, t⟩ : Item).coll = c' from fun h => hcB h.symm),
          if_neg (show ¬(⟨x.pk, B, u, t⟩ : Item).coll = c' from fun h => hcB h.symm),
          hCs']
        rw [posMS_map_id s' F c' hF'coll ?_]
        · have h6 : posMS s' c' = posMS s c' := by
            have hps := posMS_perm hperm c'
            rw [posMS_cons, if_neg (fun h => hcA h.symm)] at hps
            exact hps.symm
          have h7 : collCount s' c' = collCount s c' := by
            rw [if_neg (fun h => hcA h.symm)] at hCsplit
            omega
          have hd := hdense c'
          rw [denseAt] at hd
          rw [h6, h7, hd, show (0 : Nat) + collCount s c' = collCount s c' from by omega]
        · intro it hit hcoll
          rw [hF]
          simp only [moveOut, if_neg (hs'pk it hit)]
          rw [if_neg (fun hh => hcA (hcoll.symm.trans hh.1)),
            if_neg (fun hh => hcB (hcoll.symm.trans hh.1))]


theorem WF_deleteOp (s : State) (pk : Nat) (t : Nat) (hwf : WF s)
    (hpk : pk ∈ pks s) : WF (deleteOp s pk t) := by
  obtain ⟨hnod, hnz, hdense⟩ := hwf
  obtain ⟨x, hf⟩ := exists_findItem hpk
  have hx := findItem_eq_some hf
  rw [deleteOp_char s pk x t hf hnod hnz]
  have hNA1 : 1 ≤ collCount s x.coll := collCount_pos hx.1
  obtain ⟨hc0, hcN⟩ := member_pos_bounds hx.1 (hdense x.coll)
  set NA := collCount s x.coll with hNA
  have hperm := List.perm_cons_erase hx.1
  set s' := s.erase x with hs'
  have hs'pk : ∀ y ∈ s', y.pk ≠ pk := fun y hy => by
    have h := erase_pk_ne hnod hx.1 hy
    rw [hx.2] at h
    exact h
  have hfilter_perm : (s.filter (fun it => it.pk != pk)).Perm s' := by
    have h1 := hperm.filter (fun it => it.pk != pk)
    have hxf : (x.pk != pk) = false := by simp [hx.2]
    rw [List.filter_cons, hxf] at h1
    simp only [Bool.false_eq_true, if_false] at h1
    have h2 : s'.filter (fun it => it.pk != pk) = s' :=
      List.filter_eq_self.mpr fun y hy => by simp [hs'pk y hy]
    rw [h2] at h1
    exact h1
  set G : Item → Item := fun it =>
    if it.coll = x.coll ∧ x.pos < it.pos then ⟨it.pk, it.coll, it.pos - 1, t⟩ else it
    with hG
  have hGpk : ∀ it : Item, (G it).pk = it.pk := fun it => by
    rw [hG]
    dsimp only
    split_ifs <;> rfl
  have hGcoll : ∀ it : Item, (G it).coll = it.coll := fun it => by
    rw [hG]
    dsimp only
    split_ifs <;> rfl
  have hres : ((s.filter (fun it => it.pk != pk)).map G).Perm (s'.map G) :=
    hfilter_perm.map G
  have hsub : (pks s').Sublist (pks s) := (List.erase_sublist x s).map _
  refine ⟨?_, ?_, ?_⟩
  · have hp2 : (pks ((s.filter (fun it => it.pk != pk)).map G)).Perm (pks (s'.map G)) :=
      pks_perm hres
    rw [pks_map s' G hGpk] at hp2
    exact hp2.nodup_iff.mpr (List.Nodup.sublist hsub hnod)
  · intro q hq
    have hq' : q ∈ pks (s'.map G) := (pks_perm hres).mem_iff.mp hq
    rw [pks_map s' G hGpk] at hq'
    exact hnz q (hsub.subset hq')
  · intro c'
    rw [denseAt, posMS_perm hres c', collCount_perm hres c',
      collCount_map_congr s' G c' (fun it _ => hGcoll it)]
    have hCsplit : collCount s c' = (if x.coll = c' then 1 else 0) + collCount s' c' := by
      rw [collCount_perm hperm c', collCount_cons]
    by_cases hc' : c' = x.coll
    · subst hc'
      rw [posMS_map_shift s' G (fun q => if x.pos < q then q - 1 else q) x.coll
        (fun it _ => hGcoll it) ?_]
      · have h3 : posMS s x.coll = x.pos ::ₘ posMS s' x.coll := by
          rw [posMS_perm hperm x.coll, posMS_cons, if_pos rfl]
        have hmem : x.pos ∈ rangeMS NA := mem_rangeMS.mpr ⟨hc0, hcN⟩
        have h4 : posMS s' x.coll = (rangeMS NA).erase x.pos := by
          have hd := hdense x.coll
          rw [denseAt] at hd
          rw [h3] at hd
          rw [← Multiset.cons_erase hmem] at hd
          exact (Multiset.cons_inj_right _).mp hd
        have hCA : collCount s' x.coll = NA - 1 := by
          rw [if_pos rfl] at hCsplit
          omega
        rw [h4, hCA]
        obtain ⟨m, hm⟩ : ∃ m, NA = m + 1 := ⟨NA - 1, by omega⟩
        rw [hm, Nat.add_sub_cancel]
        exact rangeMS_close m x.pos hc0 (by push_cast at hcN ⊢; omega)
      · intro it hit hcoll
        rw [hG]
        dsimp only
        by_cases hgt : x.pos < it.pos
        · rw [if_pos ⟨hcoll, hgt⟩, if_pos hgt]
        · rw [if_neg (fun hh => hgt hh.2), if_neg hgt]
    · rw [posMS_map_id s' G c' (fun it _ => hGcoll it) ?_]
      · have h6 : posMS s' c' = posMS s c' := by
          have hps := posMS_perm hperm c'
          rw [posMS_cons, if_neg (fun h => hc' h.symm)] at hps
          exact hps.symm
        have h7 : collCount s' c' = collCount s c' := by
          rw [if_neg (fun h => hc' h.symm)] at hCsplit
          omega
        have hd := hdense c'
        rw [denseAt] at hd
        rw [h6, h7, hd]
      · intro it hit hcoll
        rw [hG]
        dsimp only
        rw [if_neg (fun hh => hc' (hcoll.symm.trans hh.1))]

theorem WF_updateOp (s : State) (pk B : Nat) (req : Option Int) (t : Nat)
    (hwf : WF s) (hpk : pk ∈ pks s) : WF (updateOp s pk B req t) := by
  obtain ⟨x, hf⟩ := exists_findItem hpk
  by_cases hAB : x.coll = B
  · cases req with
    | none =>
      rw [← hAB, updateOp_noreq s pk x t hf]
      exact WF_writeRow_self s pk x t hf hwf
    | some r =>
      rw [← hAB]
      exact WF_update_sameColl s pk x r t hf hwf
  · exact WF_update_moveColl s pk B x req t hf hAB hwf

theorem WF_nil : WF ([] : State) :=
  ⟨List.nodup_nil, fun p hp => absurd hp (List.not_mem_nil p), fun _ => rfl⟩

/-- C1: starting from any store satisfying the invariant (and the host
guarantees: unique nonzero primary keys), after any finite sequence of
completed creates (fresh pk), updates (position change or collection move,
any requested value) and deletes, every collection's multiset of positions
is exactly `{0, …, N-1}` — no duplicates, no gaps. -/
theorem claim_C1_invariant (ops : List Op) (s : State) (t : Nat)
    (hwf : WF s) (hv : validSeq s t ops = true) :
    WF (runOps s t ops) := by
  induction ops generalizing s t with
  | nil => exact hwf
  | cons op rest ih =>
    rw [validSeq, Bool.and_eq_true] at hv
    rw [runOps]
    refine ih (applyOp s t op) (t + 1) ?_ hv.2
    cases op with
    | create pk c req =>
      have h := hv.1
      simp only [validOp, Bool.and_eq_true, decide_eq_true_eq, bne_iff_ne, ne_eq] at h
      exact WF_createOp s pk c req t hwf h.1 h.2
    | update pk B req =>
      have h := hv.1
      simp only [validOp, decide_eq_true_eq] at h
      exact WF_updateOp s pk B req t hwf h
    | delete pk =>
      have h := hv.1
      simp only [validOp, decide_eq_true_eq] at h
      exact WF_deleteOp s pk t hwf h

theorem claim_C1_witness :
    WF ([] : State) ∧
      validSeq [] 0 [Op.create 1 0 (-1), Op.create 2 0 (-1), Op.create 3 1 5,
        Op.update 2 0 (some 0), Op.update 1 1 none, Op.delete 2] = true ∧
      WF (runOps [] 0 [Op.create 1 0 (-1), Op.create 2 0 (-1), Op.create 3 1 5,
        Op.update 2 0 (some 0), Op.update 1 1 none, Op.delete 2]) :=
  ⟨WF_nil, by decide,
    claim_C1_invariant [Op.create 1 0 (-1), Op.create 2 0 (-1), Op.create 3 1 5,
      Op.update 2 0 (some 0), Op.update 1 1 none, Op.delete 2] [] 0 WF_nil (by decide)⟩

end DjangoPositions
